import Mathlib

/-!
Verification of the aif-core schema-inference library (src/lib.rs).

Shallow embedding notes:
* `serde_json::Value` is embedded as `JValue`; its `Number` type stores one of
  three variants (`PosInt : u64`, `NegInt : i64`, `Float : f64`), embedded as
  `JNum`.  `Node.observe` only branches on `is_i64() || is_u64()`, which is
  true exactly for the two integer variants, so the float payload is kept
  abstractly as a rational; no arithmetic is ever performed on it.
* `AHashSet` is embedded as `Finset` (its denotation: an unordered,
  deduplicated collection).  `AHashMap String Node` has unspecified iteration
  order; it is embedded by its canonical key-sorted association list.  Every
  function in this development depends only on the map contents, except JSON
  object emission order, which the specification designates non-normative.
* `serde_json::from_str` is an external library function; it is passed in as
  an explicit parameter `parse : String → Except String JValue` (the error
  string being the parser diagnostic that the Rust code interpolates).
* `serde_json::to_string_pretty` is pure text rendering at the boundary and
  cannot affect any structural property; the entry points therefore return the
  final JSON document (`JValue`) rather than its rendered text.
-/

/-- The closed enumeration of JSON type tags (src/lib.rs `TypeTag`). -/
inductive TypeTag where
  | null
  | boolean
  | integer
  | number
  | string
  | object
  | array
deriving DecidableEq, Repr, Fintype

/-- `TypeTag::as_str` from src/lib.rs. -/
def TypeTag.as_str : TypeTag → String
  | .null => "null"
  | .boolean => "boolean"
  | .integer => "integer"
  | .number => "number"
  | .string => "string"
  | .object => "object"
  | .array => "array"

/-- `serde_json`'s internal number representation: a decoded numeric token is
stored as a `u64` (`posInt`), a negative `i64` (`negInt`), or an `f64`
(`float`, used whenever the token has a fractional part or exponent, or is out
of 64-bit range).  The float payload is never inspected by the library. -/
inductive JNum where
  | posInt (v : Nat)
  | negInt (v : Int)
  | float (q : Rat)
deriving DecidableEq, Repr

/-- `serde_json::Number::is_i64`: the stored value fits an `i64`. -/
def JNum.is_i64 : JNum → Bool
  | .posInt v => decide (v ≤ 9223372036854775807)
  | .negInt _ => true
  | .float _ => false

/-- `serde_json::Number::is_u64`: the stored value is the `u64` variant. -/
def JNum.is_u64 : JNum → Bool
  | .posInt _ => true
  | _ => false

/-- Well-formedness guaranteed by the serde_json parser: `posInt` holds a
`u64` value and `negInt` a negative `i64` value. -/
def JNum.wf : JNum → Prop
  | .posInt v => v < 18446744073709551616
  | .negInt v => -9223372036854775808 ≤ v ∧ v < 0
  | .float _ => True

/-- The mathematical value of a decoded numeric token that has no fractional
part (integer variants); `none` for tokens decoded as floats. -/
def JNum.tokenIntegralValue : JNum → Option Int
  | .posInt v => some (v : Int)
  | .negInt v => some v
  | .float _ => none

/-- `serde_json::Value`, with objects as association lists (serde's map,
embedded by its entry list; parser output never carries duplicate keys). -/
inductive JValue where
  | null
  | bool (b : Bool)
  | num (n : JNum)
  | str (s : String)
  | arr (elems : List JValue)
  | obj (fields : List (String × JValue))

/-- First-match key lookup in an object's field list (`Map::get`). -/
def getField : List (String × JValue) → String → Option JValue
  | [], _ => none
  | (k₀, v₀) :: rest, k => if k = k₀ then some v₀ else getField rest k

/-- `serde_json::Value::get(key)`: key lookup on objects, `None` otherwise. -/
def JValue.get : JValue → String → Option JValue
  | .obj fields, k => getField fields k
  | _, _ => none

/-- The observation tree node (src/lib.rs `Node`): observed type tags, child
nodes per object property, and the single shared array-items child. -/
inductive Node where
  | mk (types : Finset TypeTag) (properties : List (String × Node)) (items : Option Node)

def Node.types : Node → Finset TypeTag
  | .mk ts _ _ => ts

def Node.properties : Node → List (String × Node)
  | .mk _ ps _ => ps

def Node.items : Node → Option Node
  | .mk _ _ it => it

/-- `Node::default()`: empty type set, no properties, no items child. -/
def Node.default : Node := .mk ∅ [] none

mutual
/-- `Node::observe` from src/lib.rs: account for one JSON value. -/
def Node.observe : Node → JValue → Node
  | .mk ts ps it, .null => .mk (insert TypeTag.null ts) ps it
  | .mk ts ps it, .bool _ => .mk (insert TypeTag.boolean ts) ps it
  | .mk ts ps it, .num n =>
      .mk (insert (if n.is_i64 || n.is_u64 then TypeTag.integer else TypeTag.number) ts) ps it
  | .mk ts ps it, .str _ => .mk (insert TypeTag.string ts) ps it
  | .mk ts ps it, .arr elems =>
      .mk (insert TypeTag.array ts) ps (some (Node.observeAll (it.getD Node.default) elems))
  | .mk ts ps it, .obj fields =>
      .mk (insert TypeTag.object ts) (Node.observeFields ps fields) it
termination_by n v => (sizeOf v, 0)

/-- The element loop of `Node::observe`'s array case: observe every element
into the single shared items child. -/
def Node.observeAll : Node → List JValue → Node
  | n, [] => n
  | n, v :: vs => Node.observeAll (Node.observe n v) vs
termination_by n vs => (sizeOf vs, 0)

/-- The key/value loop of `Node::observe`'s object case. -/
def Node.observeFields : List (String × Node) → List (String × JValue) → List (String × Node)
  | ps, [] => ps
  | ps, (k, v) :: rest => Node.observeFields (Node.entryObserve ps k v) rest
termination_by ps fs => (sizeOf fs, 0)

/-- `self.properties.entry(k).or_default().observe(v)`: update the child for
key `k` in place, creating a default child first if the key is absent (the
hash map is embedded by its key-sorted association list). -/
def Node.entryObserve : List (String × Node) → String → JValue → List (String × Node)
  | [], k, v => [(k, Node.observe Node.default v)]
  | (k₀, n₀) :: rest, k, v =>
      if k = k₀ then (k₀, Node.observe n₀ v) :: rest
      else if k < k₀ then (k, Node.observe Node.default v) :: (k₀, n₀) :: rest
      else (k₀, n₀) :: Node.entryObserve rest k v
termination_by ps k v => (sizeOf v, sizeOf ps + 1)
end

/-- `types.sort(...)` from `Node::to_json_schema`: lexicographic sort of the
collected type-name strings (the Rust comparator is plain `str::cmp`, so only
the sorted result matters; insertion sort realizes it here). -/
def sortStrings (l : List String) : List String :=
  List.insertionSort (fun a b => a ≤ b) l

/-- The seven type tags, listed once each. -/
def TypeTag.all : List TypeTag :=
  [.null, .boolean, .integer, .number, .string, .object, .array]

/-- The `type` names emitted for a tag set: each member's name exactly once,
lexicographically sorted.  (The Rust code iterates the hash set in arbitrary
order and then sorts; the sort makes the iteration order irrelevant, so the
set is enumerated here by filtering the fixed complete tag list.) -/
def typeNames (ts : Finset TypeTag) : List String :=
  sortStrings ((TypeTag.all.filter (fun t => decide (t ∈ ts))).map TypeTag.as_str)

mutual
/-- `Node::to_json_schema` from src/lib.rs: emit `type` (single string /
sorted array / omitted), then `properties`, then `items`. -/
def Node.to_json_schema : Node → JValue
  | .mk ts ps it =>
      let names := typeNames ts
      let m1 : List (String × JValue) :=
        match names with
        | [one] => [("type", JValue.str one)]
        | [] => []
        | many => [("type", JValue.arr (many.map JValue.str))]
      let m2 :=
        if TypeTag.object ∈ ts ∧ ps.isEmpty = false then
          m1 ++ [("properties", JValue.obj (Node.propsToSchema ps))]
        else m1
      let m3 :=
        if TypeTag.array ∈ ts then
          match it with
          | some child => m2 ++ [("items", Node.to_json_schema child)]
          | none => m2
        else m2
      JValue.obj m3
termination_by n => sizeOf n

/-- The per-key emission loop of `Node::to_json_schema`'s properties case. -/
def Node.propsToSchema : List (String × Node) → List (String × JValue)
  | [] => []
  | (k, n) :: rest => (k, Node.to_json_schema n) :: Node.propsToSchema rest
termination_by ps => sizeOf ps
end

/-- `parse_samples`' loop body from src/lib.rs: parse each sample, wrapping
the diagnostic as `Invalid JSON: {e}`, and observe it into the root. -/
def parse_samples_loop (parse : String → Except String JValue) :
    Node → List String → Except String Node
  | root, [] => .ok root
  | root, s :: rest =>
      match parse s with
      | .error e => .error ("Invalid JSON: " ++ e)
      | .ok v => parse_samples_loop parse (root.observe v) rest

/-- `parse_samples` from src/lib.rs: fold all samples into a default root. -/
def parse_samples (parse : String → Except String JValue) (samples : List String) :
    Except String Node :=
  parse_samples_loop parse Node.default samples

/-- `infer_schema_rs` from src/lib.rs: build the tree, emit the root schema,
and wrap it in the fixed 2020-12 document (serialization of this document is
the boundary and is not modelled). -/
def infer_schema_rs (parse : String → Except String JValue) (samples : List String) :
    Except String JValue :=
  match parse_samples parse samples with
  | .error e => .error e
  | .ok node =>
      let schema := node.to_json_schema
      .ok (JValue.obj
        [("$schema", JValue.str "https://json-schema.org/draft/2020-12/schema"),
         ("type", JValue.str "object"),
         ("properties", (schema.get "properties").getD (JValue.obj []))])

theorem sizeOf_getField {fields : List (String × JValue)} {k : String} {v : JValue}
    (h : getField fields k = some v) : sizeOf v < sizeOf fields := by
  induction fields with
  | nil => simp [getField] at h
  | cons p rest ih =>
      obtain ⟨k₀, v₀⟩ := p
      by_cases hk : k = k₀
      · simp [getField, hk] at h
        subst h
        simp
        omega
      · simp [getField, hk] at h
        have := ih h
        simp
        omega

mutual
/-- `collect_paths` from src/lib.rs: walk a schema document, inserting every
property path (`parent.key`, bare `key` at the root) and every array path
(`parent[]`, bare `[]` at the root) into the accumulator. -/
def collect_paths : JValue → String → Finset String → Finset String
  | .obj fields, pfx, acc =>
      let acc₁ :=
        match h : getField fields "properties" with
        | some (.obj props) => collect_props props pfx acc
        | some .null => acc
        | some (.bool _) => acc
        | some (.num _) => acc
        | some (.str _) => acc
        | some (.arr _) => acc
        | none => acc
      match h₂ : getField fields "items" with
      | some itv =>
          let next := if pfx = "" then "[]" else pfx ++ "[]"
          collect_paths itv next (insert next acc₁)
      | none => acc₁
  | _, _, acc => acc
termination_by s _ _ => sizeOf s
decreasing_by
  all_goals simp_wf
  all_goals first
    | (skip; have hq := sizeOf_getField h; simp at hq; omega)
    | (skip; have hq := sizeOf_getField h₂; simp at hq; omega)
    | (simp; omega)
    | omega

/-- The per-key loop of `collect_paths` over a `properties` object. -/
def collect_props : List (String × JValue) → String → Finset String → Finset String
  | [], _, acc => acc
  | (k, v) :: rest, pfx, acc =>
      let next := if pfx = "" then k else pfx ++ "." ++ k
      collect_props rest pfx (collect_paths v next (insert next acc))
termination_by ps _ _ => sizeOf ps + 1
end

/-- `diff_schemas_rs` from src/lib.rs: parse both sides (tagging which side's
diagnostic), collect both path sets, and return
`(added, removed, common) = (kb − ka, ka − kb, ka ∩ kb)`; the Rust code then
serializes the three sets as arrays in unspecified order. -/
def diff_schemas_rs (parse : String → Except String JValue) (a b : String) :
    Except String (Finset String × Finset String × Finset String) :=
  match parse a with
  | .error e => .error ("schema A parse error: " ++ e)
  | .ok va =>
      match parse b with
      | .error e => .error ("schema B parse error: " ++ e)
      | .ok vb =>
          let ka := collect_paths va "" ∅
          let kb := collect_paths vb "" ∅
          .ok (kb \ ka, ka \ kb, ka ∩ kb)

/-- Spec-side predicate (§3/§4.1, for comparison with the code's
classification): the observed numeric value is representable as a 64-bit
signed or unsigned integer with no fractional part.  Per §9, "no fractional
part" is read at the decoded-token level: a token decoded as a float (because
it carried a `.` or an exponent, or was out of 64-bit range) has no integral
token value. -/
def specIntegerRepresentable (n : JNum) : Prop :=
  ∃ k : Int, n.tokenIntegralValue = some k ∧
    ((-9223372036854775808 ≤ k ∧ k ≤ 9223372036854775807) ∨
      (0 ≤ k ∧ k ≤ 18446744073709551615))

/-- Whether a JSON value is an object. -/
def JValue.isObjB : JValue → Bool
  | .obj _ => true
  | _ => false

/-- The values of the samples that parse successfully, in list order. -/
def parsedValues (parse : String → Except String JValue) (ss : List String) : List JValue :=
  ss.filterMap (fun s => (parse s).toOption)

/-- A JSON array that is a lexicographically sorted array of strings. -/
def sortedStrArrB : List JValue → Bool
  | [] => true
  | [JValue.str _] => true
  | JValue.str a :: JValue.str b :: rest =>
      decide (a ≤ b) && sortedStrArrB (JValue.str b :: rest)
  | _ => false

mutual
/-- Every `type` keyword holding an array anywhere in a document holds a
lexicographically sorted array of strings (the one normative ordering
guarantee of §8). -/
def typeArraysSortedB : JValue → Bool
  | .obj fields =>
      (match getField fields "type" with
       | some (.arr l) => sortedStrArrB l
       | _ => true)
      && fieldsTypeSortedB fields
  | .arr xs => elemsTypeSortedB xs
  | _ => true
termination_by v => sizeOf v

/-- `typeArraysSortedB` over an object's field list. -/
def fieldsTypeSortedB : List (String × JValue) → Bool
  | [] => true
  | (_, v) :: rest => typeArraysSortedB v && fieldsTypeSortedB rest
termination_by fs => sizeOf fs

/-- `typeArraysSortedB` over an array's element list. -/
def elemsTypeSortedB : List JValue → Bool
  | [] => true
  | v :: rest => typeArraysSortedB v && elemsTypeSortedB rest
termination_by vs => sizeOf vs
end

/-- The `properties` step of `collect_paths` on an object, factored out for
reasoning about the recursion. -/
def propsStep (fields : List (String × JValue)) (pfx : String) (acc : Finset String) :
    Finset String :=
  match getField fields "properties" with
  | some (.obj props) => collect_props props pfx acc
  | _ => acc

/-- The `items` step of `collect_paths` on an object, factored out. -/
def itemsStep (fields : List (String × JValue)) (pfx : String) (acc : Finset String) :
    Finset String :=
  match getField fields "items" with
  | some itv =>
      let next := if pfx = "" then "[]" else pfx ++ "[]"
      collect_paths itv next (insert next acc)
  | none => acc

/-- A stand-in for a concrete JSON parser, used to instantiate theorems that
are generic in the external parser: accepts the two documents the witnesses
need and reports a diagnostic otherwise. -/
def parseStub (s : String) : Except String JValue :=
  if s = "{}" then .ok (.obj [])
  else if s = "sample-obj-a" then
    .ok (.obj [("a", .num (.posInt 1))])
  else .error "expected value"

/-! ## Basic lemmas -/

theorem observeAll_nil (n : Node) : Node.observeAll n [] = n := by
  simp [Node.observeAll]

theorem observeAll_cons (n : Node) (v : JValue) (vs : List JValue) :
    Node.observeAll n (v :: vs) = Node.observeAll (n.observe v) vs := by
  simp [Node.observeAll]

theorem parse_samples_loop_ok (parse : String → Except String JValue) :
    ∀ (ss : List String) (root : Node), (∀ s ∈ ss, ∃ v, parse s = .ok v) →
      parse_samples_loop parse root ss = .ok (Node.observeAll root (parsedValues parse ss)) := by
  intro ss
  induction ss with
  | nil => intro root _; simp [parse_samples_loop, parsedValues, observeAll_nil]
  | cons s rest ih =>
      intro root h
      obtain ⟨v, hv⟩ := h s (by simp)
      have hrest : ∀ x ∈ rest, ∃ w, parse x = .ok w := fun x hx => h x (by simp [hx])
      simp [parse_samples_loop, hv, parsedValues, Except.toOption, observeAll_cons,
        List.filterMap_cons]
      have := ih (root.observe v) hrest
      simpa [parsedValues] using this

theorem collect_paths_not_obj (s : JValue) (pfx : String) (acc : Finset String)
    (h : s.isObjB = false) : collect_paths s pfx acc = acc := by
  cases s <;> simp_all [collect_paths, JValue.isObjB]

theorem collect_paths_obj (fields : List (String × JValue)) (pfx : String)
    (acc : Finset String) :
    collect_paths (.obj fields) pfx acc = itemsStep fields pfx (propsStep fields pfx acc) := by
  rw [collect_paths]
  simp only [propsStep, itemsStep]
  rcases hp : getField fields "properties" with _ | vp
  · rcases hi : getField fields "items" with _ | vi <;> simp [hp, hi]
  · rcases hi : getField fields "items" with _ | vi <;> cases vp <;> simp [hp, hi]

mutual
theorem subset_collect_paths (s : JValue) (pfx : String) (acc : Finset String) :
    acc ⊆ collect_paths s pfx acc := by
  cases s with
  | obj fields =>
      rw [collect_paths_obj]
      have h1 : acc ⊆ propsStep fields pfx acc := by
        unfold propsStep
        rcases hp : getField fields "properties" with _ | vp
        · exact Finset.Subset.refl acc
        · cases vp with
          | obj props => exact subset_collect_props props pfx acc
          | null => exact Finset.Subset.refl acc
          | bool b => exact Finset.Subset.refl acc
          | num n => exact Finset.Subset.refl acc
          | str t => exact Finset.Subset.refl acc
          | arr xs => exact Finset.Subset.refl acc
      refine h1.trans ?_
      unfold itemsStep
      rcases hi : getField fields "items" with _ | vi
      · exact Finset.Subset.refl _
      · exact Finset.Subset.trans (Finset.subset_insert _ _) (subset_collect_paths vi _ _)
  | null => simp [collect_paths]
  | bool b => simp [collect_paths]
  | num n => simp [collect_paths]
  | str t => simp [collect_paths]
  | arr xs => simp [collect_paths]
termination_by sizeOf s
decreasing_by
  all_goals simp
  all_goals (first
    | (skip; have hq := sizeOf_getField hp; simp at hq; omega)
    | (skip; have hq := sizeOf_getField hi; simp at hq; omega)
    | omega)

theorem subset_collect_props (ps : List (String × JValue)) (pfx : String)
    (acc : Finset String) : acc ⊆ collect_props ps pfx acc := by
  cases ps with
  | nil => simp [collect_props]
  | cons p rest =>
      obtain ⟨k, v⟩ := p
      rw [collect_props]
      exact Finset.Subset.trans
        (Finset.subset_insert (if pfx = "" then k else pfx ++ "." ++ k) acc)
        (Finset.Subset.trans
          (subset_collect_paths v (if pfx = "" then k else pfx ++ "." ++ k) _)
          (subset_collect_props rest pfx _))
termination_by sizeOf ps + 1
decreasing_by
  all_goals simp
  all_goals omega
end

theorem subset_itemsStep (fields : List (String × JValue)) (pfx : String)
    (acc : Finset String) : acc ⊆ itemsStep fields pfx acc := by
  unfold itemsStep
  rcases hi : getField fields "items" with _ | vi
  · exact Finset.Subset.refl _
  · exact Finset.Subset.trans (Finset.subset_insert _ _) (subset_collect_paths vi _ _)

theorem mem_collect_props (props : List (String × JValue)) (k : String) (v : JValue)
    (pfx : String) (acc : Finset String) (hmem : (k, v) ∈ props) :
    (if pfx = "" then k else pfx ++ "." ++ k) ∈ collect_props props pfx acc := by
  induction props generalizing acc with
  | nil => simp at hmem
  | cons p rest ih =>
      obtain ⟨k0, v0⟩ := p
      rw [collect_props]
      rcases List.mem_cons.mp hmem with heq | htail
      · obtain ⟨hk, hv⟩ := Prod.mk.injEq k v k0 v0 ▸ heq
        subst hk
        exact Finset.mem_of_subset
          (Finset.Subset.trans (subset_collect_paths v0 _ _) (subset_collect_props rest pfx _))
          (Finset.mem_insert_self _ _)
      · exact ih _ htail

/-! ## C5: numeric classification -/

/-- C5: `Node::observe` on a numeric value inserts the Integer tag exactly
when the value is representable as a 64-bit signed or unsigned integer with
no fractional part (token-level reading, §9), and the Number tag otherwise;
observing `1` yields `integer` and observing `1.5` yields `number`. -/
theorem observe_number_classification (ts : Finset TypeTag) (ps : List (String × Node))
    (it : Option Node) (n : JNum) (hwf : n.wf) :
    Node.observe (.mk ts ps it) (.num n) =
      .mk (insert (if n.is_i64 || n.is_u64 then TypeTag.integer else TypeTag.number) ts) ps it
    ∧ ((n.is_i64 || n.is_u64) = true ↔ specIntegerRepresentable n)
    ∧ (Node.observe Node.default (.num (JNum.posInt 1))).types = {TypeTag.integer}
    ∧ (Node.observe Node.default (.num (JNum.float (3 / 2)))).types = {TypeTag.number} := by
  refine ⟨by simp [Node.observe], ?_, ?_, ?_⟩
  · cases n with
    | posInt v =>
        simp only [JNum.is_i64, JNum.is_u64, JNum.wf] at hwf ⊢
        constructor
        · intro _
          exact ⟨(v : Int), rfl, Or.inr ⟨by positivity, by omega⟩⟩
        · intro _; simp
    | negInt v =>
        simp only [JNum.is_i64, JNum.is_u64, JNum.wf] at hwf ⊢
        constructor
        · intro _
          exact ⟨v, rfl, Or.inl ⟨hwf.1, by omega⟩⟩
        · intro _; simp
    | float q =>
        simp only [JNum.is_i64, JNum.is_u64, specIntegerRepresentable,
          JNum.tokenIntegralValue]
        simp
  · simp [Node.observe, Node.default, Node.types, JNum.is_i64, JNum.is_u64]
  · simp [Node.observe, Node.default, Node.types, JNum.is_i64, JNum.is_u64]

/-- Witness for C5 at the concrete input `1` (well-formedness discharged). -/
theorem observe_number_classification_witness :
    Node.observe (.mk ∅ [] none) (.num (JNum.posInt 1)) =
      .mk (insert (if (JNum.posInt 1).is_i64 || (JNum.posInt 1).is_u64
            then TypeTag.integer else TypeTag.number) ∅) [] none
    ∧ (((JNum.posInt 1).is_i64 || (JNum.posInt 1).is_u64) = true ↔
        specIntegerRepresentable (JNum.posInt 1))
    ∧ (Node.observe Node.default (.num (JNum.posInt 1))).types = {TypeTag.integer}
    ∧ (Node.observe Node.default (.num (JNum.float (3 / 2)))).types = {TypeTag.number} :=
  observe_number_classification ∅ [] none (JNum.posInt 1) (by norm_num [JNum.wf])

/-! ## C8: first invalid sample short-circuits inference -/

/-- C8: `infer_schema` on a sample list whose first invalid member is `s`
(the samples before it all parse) fails with a `ParseError` carrying `s`'s
parse diagnostic; the samples after `s` are never consulted (the conclusion
holds for every `post`) and no partial schema is returned. -/
theorem infer_schema_first_parse_error (parse : String → Except String JValue)
    (pre : List String) (s : String) (post : List String) (e : String)
    (hpre : ∀ x ∈ pre, ∃ v, parse x = .ok v) (hs : parse s = .error e) :
    infer_schema_rs parse (pre ++ s :: post) = .error ("Invalid JSON: " ++ e) := by
  have loop : ∀ (pre : List String) (root : Node), (∀ x ∈ pre, ∃ v, parse x = .ok v) →
      parse_samples_loop parse root (pre ++ s :: post) = .error ("Invalid JSON: " ++ e) := by
    intro pre
    induction pre with
    | nil => intro root _; simp [parse_samples_loop, hs]
    | cons x rest ih =>
        intro root h
        obtain ⟨v, hv⟩ := h x (by simp)
        simp [parse_samples_loop, hv]
        exact ih (root.observe v) (fun y hy => h y (by simp [hy]))
  simp [infer_schema_rs, parse_samples, loop pre Node.default hpre]

/-- Witness for C8: the singleton list whose only sample fails to parse. -/
theorem infer_schema_first_parse_error_witness :
    infer_schema_rs parseStub ([] ++ "not json" :: []) =
      .error ("Invalid JSON: " ++ "expected value") :=
  infer_schema_first_parse_error parseStub [] "not json" [] "expected value"
    (by intro x hx; simp at hx) rfl

/-! ## C9: diff parse errors identify the failing side -/

/-- C9: `diff_schemas` fails with a `ParseError` identifying which side
failed to parse, independently for A and B. -/
theorem diff_schemas_parse_error_sides (parse : String → Except String JValue)
    (a b : String) :
    (∀ e, parse a = .error e →
      diff_schemas_rs parse a b = .error ("schema A parse error: " ++ e))
    ∧ (∀ va e, parse a = .ok va → parse b = .error e →
      diff_schemas_rs parse a b = .error ("schema B parse error: " ++ e)) := by
  constructor
  · intro e he; simp [diff_schemas_rs, he]
  · intro va e ha hb; simp [diff_schemas_rs, ha, hb]

/-- Witness for C9: `diff_schemas("not json", "{}")` fails identifying side
A with the parser's diagnostic. -/
theorem diff_schemas_parse_error_sides_witness :
    diff_schemas_rs parseStub "not json" "{}" =
      .error ("schema A parse error: " ++ "expected value") :=
  (diff_schemas_parse_error_sides parseStub "not json" "{}").1 "expected value" rfl

/-! ## C3: diff set algebra -/

/-- C3: on two successfully parsed schemas, `diff_schemas` returns
`added = Pb − Pa`, `removed = Pa − Pb`, `common = Pa ∩ Pb`, and consequently
`added ∩ removed = ∅`, `added ∪ common = Pb`, `removed ∪ common = Pa`. -/
theorem diff_schemas_set_algebra (parse : String → Except String JValue)
    (a b : String) (va vb : JValue) (ha : parse a = .ok va) (hb : parse b = .ok vb) :
    diff_schemas_rs parse a b =
      .ok (collect_paths vb "" ∅ \ collect_paths va "" ∅,
           collect_paths va "" ∅ \ collect_paths vb "" ∅,
           collect_paths va "" ∅ ∩ collect_paths vb "" ∅)
    ∧ (collect_paths vb "" ∅ \ collect_paths va "" ∅) ∩
        (collect_paths va "" ∅ \ collect_paths vb "" ∅) = ∅
    ∧ (collect_paths vb "" ∅ \ collect_paths va "" ∅) ∪
        (collect_paths va "" ∅ ∩ collect_paths vb "" ∅) = collect_paths vb "" ∅
    ∧ (collect_paths va "" ∅ \ collect_paths vb "" ∅) ∪
        (collect_paths va "" ∅ ∩ collect_paths vb "" ∅) = collect_paths va "" ∅ := by
  refine ⟨by simp [diff_schemas_rs, ha, hb], ?_, ?_, ?_⟩
  · ext x
    simp only [Finset.mem_inter, Finset.mem_sdiff, Finset.not_mem_empty, iff_false]
    tauto
  · ext x
    simp only [Finset.mem_union, Finset.mem_sdiff, Finset.mem_inter]
    tauto
  · ext x
    simp only [Finset.mem_union, Finset.mem_sdiff, Finset.mem_inter]
    tauto

/-- Witness for C3 at two concrete parsed schemas. -/
theorem diff_schemas_set_algebra_witness :
    diff_schemas_rs parseStub "{}" "{}" =
      .ok (collect_paths (.obj []) "" ∅ \ collect_paths (.obj []) "" ∅,
           collect_paths (.obj []) "" ∅ \ collect_paths (.obj []) "" ∅,
           collect_paths (.obj []) "" ∅ ∩ collect_paths (.obj []) "" ∅)
    ∧ (collect_paths (.obj []) "" ∅ \ collect_paths (.obj []) "" ∅) ∩
        (collect_paths (.obj []) "" ∅ \ collect_paths (.obj []) "" ∅) = ∅
    ∧ (collect_paths (.obj []) "" ∅ \ collect_paths (.obj []) "" ∅) ∪
        (collect_paths (.obj []) "" ∅ ∩ collect_paths (.obj []) "" ∅) =
          collect_paths (.obj []) "" ∅
    ∧ (collect_paths (.obj []) "" ∅ \ collect_paths (.obj []) "" ∅) ∪
        (collect_paths (.obj []) "" ∅ ∩ collect_paths (.obj []) "" ∅) =
          collect_paths (.obj []) "" ∅ :=
  diff_schemas_set_algebra parseStub "{}" "{}" (.obj []) (.obj []) rfl rfl

/-! ## Emitter shape lemmas -/

theorem to_json_schema_eq (ts : Finset TypeTag) (ps : List (String × Node)) (it : Option Node) :
    (Node.mk ts ps it).to_json_schema = JValue.obj
      ((match typeNames ts with
        | [one] => [("type", JValue.str one)]
        | [] => []
        | many => [("type", JValue.arr (many.map JValue.str))])
       ++ (if TypeTag.object ∈ ts ∧ ps.isEmpty = false
           then [("properties", JValue.obj (Node.propsToSchema ps))] else [])
       ++ (if TypeTag.array ∈ ts then
             (match it with
              | some c => [("items", c.to_json_schema)]
              | none => []) else [])) := by
  rw [Node.to_json_schema.eq_def]
  rcases hn : typeNames ts with _ | ⟨one, tl⟩
  · by_cases h2 : TypeTag.object ∈ ts ∧ ps.isEmpty = false <;>
      by_cases h3 : TypeTag.array ∈ ts <;> cases it <;> simp [hn, h2, h3] <;>
      split_ifs <;> simp_all
  · cases tl with
    | nil =>
        by_cases h2 : TypeTag.object ∈ ts ∧ ps.isEmpty = false <;>
          by_cases h3 : TypeTag.array ∈ ts <;> cases it <;> simp [hn, h2, h3] <;>
          split_ifs <;> simp_all
    | cons two rest =>
        by_cases h2 : TypeTag.object ∈ ts ∧ ps.isEmpty = false <;>
          by_cases h3 : TypeTag.array ∈ ts <;> cases it <;> simp [hn, h2, h3] <;>
          split_ifs <;> simp_all

theorem typeNames_sorted (ts : Finset TypeTag) : List.Sorted (· ≤ ·) (typeNames ts) := by
  unfold typeNames sortStrings
  exact List.sorted_insertionSort _ _

set_option maxRecDepth 8192 in
theorem typeNames_length (ts : Finset TypeTag) : (typeNames ts).length = ts.card := by
  unfold typeNames sortStrings
  rw [(List.perm_insertionSort _ _).length_eq, List.length_map]
  revert ts; decide

theorem typeNames_empty : typeNames ∅ = [] := rfl

theorem typeNames_singleton (t : TypeTag) : typeNames {t} = [t.as_str] := by
  cases t <;> rfl

theorem to_json_schema_default : Node.default.to_json_schema = JValue.obj [] := by
  rw [show Node.default = Node.mk ∅ [] none from rfl, to_json_schema_eq]
  simp [typeNames_empty]

/-! ## C6: `type` keyword emission -/

/-- C6: `to_json_schema` emits `type` as a single string when exactly one
TypeTag is present, as a lexicographically sorted array of type names when
more than one is present, and omits the key when no TypeTag is present; the
emitter is total (a Lean function) and handles the never-observed default
Node. -/
theorem to_json_schema_type_emission (n : Node) :
    (n.types = ∅ → n.to_json_schema.get "type" = none)
    ∧ (∀ t, n.types = {t} → n.to_json_schema.get "type" = some (.str t.as_str))
    ∧ (2 ≤ n.types.card →
        n.to_json_schema.get "type" = some (.arr ((typeNames n.types).map JValue.str))
        ∧ List.Sorted (· ≤ ·) (typeNames n.types)
        ∧ (typeNames n.types).length = n.types.card)
    ∧ Node.default.to_json_schema = JValue.obj [] := by
  obtain ⟨ts, ps, it⟩ := n
  simp only [Node.types]
  refine ⟨?_, ?_, ?_, to_json_schema_default⟩
  · intro h
    subst h
    rw [to_json_schema_eq]
    simp [typeNames_empty, JValue.get, getField]
  · intro t h
    subst h
    rw [to_json_schema_eq]
    simp [typeNames_singleton, JValue.get, getField]
  · intro h2
    rcases hn : typeNames ts with _ | ⟨a, _ | ⟨b, l⟩⟩
    · have := typeNames_length ts
      rw [hn] at this
      simp at this
      omega
    · have := typeNames_length ts
      rw [hn] at this
      simp at this
      omega
    · refine ⟨?_, hn ▸ typeNames_sorted ts, hn ▸ typeNames_length ts⟩
      rw [to_json_schema_eq, hn]
      simp [JValue.get, getField]

/-- Witness for C6: a one-tag node emits `type` as that single string. -/
theorem to_json_schema_type_emission_witness :
    (Node.mk {TypeTag.integer} [] none).to_json_schema.get "type" =
      some (.str TypeTag.integer.as_str) :=
  (to_json_schema_type_emission (Node.mk {TypeTag.integer} [] none)).2.1 TypeTag.integer rfl

/-! ## C1: observing only empty arrays (corrected) -/

/-- C1 counterexample: observing only `[]` at a position does NOT leave the
items child absent — `get_or_insert_with` creates it before the (empty)
element loop runs — and the emitted schema carries an `"items": {}` key. -/
theorem observe_empty_array_creates_items_cex :
    (Node.observe Node.default (JValue.arr [])).items = some Node.default
    ∧ (Node.observe Node.default (JValue.arr [])).to_json_schema.get "items" =
        some (JValue.obj [])
    ∧ ¬((Node.observe Node.default (JValue.arr [])).items = none) := by
  have h1 : Node.observe Node.default (JValue.arr []) =
      Node.mk {TypeTag.array} [] (some Node.default) := by
    simp [Node.observe, Node.observeAll, Node.default]
  refine ⟨by rw [h1]; simp [Node.items], ?_, by rw [h1]; simp [Node.items]⟩
  rw [h1, to_json_schema_eq]
  simp [typeNames_singleton, to_json_schema_default, TypeTag.as_str, JValue.get, getField]

/-- C1 amended: at a position where only empty arrays were ever observed, the
Node's items child is present but is the default (never-observed) Node, and
the emitted schema is exactly `{"type": "array", "items": {}}`. -/
theorem observe_only_empty_arrays_amended (vs : List JValue) (hne : vs ≠ [])
    (hall : ∀ v ∈ vs, v = JValue.arr []) :
    Node.observeAll Node.default vs = Node.mk {TypeTag.array} [] (some Node.default)
    ∧ (Node.observeAll Node.default vs).to_json_schema =
        JValue.obj [("type", JValue.str "array"), ("items", JValue.obj [])] := by
  have hobs : (Node.mk {TypeTag.array} [] (some Node.default)).observe (JValue.arr []) =
      Node.mk {TypeTag.array} [] (some Node.default) := by
    simp [Node.observe, Node.observeAll, Finset.insert_idem]
  have step : ∀ ws, (∀ v ∈ ws, v = JValue.arr []) →
      Node.observeAll (Node.mk {TypeTag.array} [] (some Node.default)) ws =
        Node.mk {TypeTag.array} [] (some Node.default) := by
    intro ws
    induction ws with
    | nil => intro _; simp [observeAll_nil]
    | cons w ws ih =>
        intro h
        have hw := h w (by simp)
        subst hw
        rw [observeAll_cons, hobs]
        exact ih (fun v hv => h v (by simp [hv]))
  have main : Node.observeAll Node.default vs =
      Node.mk {TypeTag.array} [] (some Node.default) := by
    cases vs with
    | nil => exact absurd rfl hne
    | cons v ws =>
        have hv := hall v (by simp)
        subst hv
        rw [observeAll_cons]
        have h0 : Node.default.observe (JValue.arr []) =
            Node.mk {TypeTag.array} [] (some Node.default) := by
          simp [Node.observe, Node.observeAll, Node.default]
        rw [h0]
        exact step ws (fun v hv => hall v (by simp [hv]))
  refine ⟨main, ?_⟩
  rw [main, to_json_schema_eq]
  simp [typeNames_singleton, to_json_schema_default, TypeTag.as_str]

/-- Witness for C1's amended statement at the single sample `[]`. -/
theorem observe_only_empty_arrays_amended_witness :
    Node.observeAll Node.default [JValue.arr []] =
      Node.mk {TypeTag.array} [] (some Node.default)
    ∧ (Node.observeAll Node.default [JValue.arr []]).to_json_schema =
        JValue.obj [("type", JValue.str "array"), ("items", JValue.obj [])] :=
  observe_only_empty_arrays_amended [JValue.arr []] (by simp)
    (by intro v hv; simpa using hv)

/-! ## C4: the wrapped top-level document -/

/-- C4: for samples that all parse, the document returned by `infer_schema`
has `$schema` fixed to the 2020-12 identifier, `type` forced to the literal
`"object"` whatever the samples were, and `properties` taken from the emitted
root schema's `properties` (an empty object when the root emitted none, e.g.
zero samples). -/
theorem infer_schema_document_shape (parse : String → Except String JValue) (ss : List String)
    (hok : ∀ s ∈ ss, ∃ v, parse s = .ok v) :
    ∃ node d, parse_samples parse ss = .ok node ∧ infer_schema_rs parse ss = .ok d ∧
      d.get "$schema" = some (.str "https://json-schema.org/draft/2020-12/schema") ∧
      d.get "type" = some (.str "object") ∧
      d.get "properties" = some ((node.to_json_schema.get "properties").getD (JValue.obj [])) ∧
      (ss = [] → d.get "properties" = some (JValue.obj [])) := by
  have hps : parse_samples parse ss = .ok (Node.observeAll Node.default (parsedValues parse ss)) :=
    parse_samples_loop_ok parse ss Node.default hok
  refine ⟨Node.observeAll Node.default (parsedValues parse ss),
    JValue.obj
      [("$schema", JValue.str "https://json-schema.org/draft/2020-12/schema"),
       ("type", JValue.str "object"),
       ("properties",
         (((Node.observeAll Node.default (parsedValues parse ss)).to_json_schema.get
            "properties").getD (JValue.obj [])))],
    hps, ?_, ?_, ?_, ?_, ?_⟩
  · simp [infer_schema_rs, hps]
  · simp [JValue.get, getField]
  · simp [JValue.get, getField]
  · simp [JValue.get, getField]
  · intro h
    subst h
    simp [JValue.get, getField, parsedValues, observeAll_nil, to_json_schema_default]

/-- Witness for C4 at one concrete sample list. -/
theorem infer_schema_document_shape_witness :
    ∃ node d, parse_samples parseStub ["{}"] = .ok node ∧
      infer_schema_rs parseStub ["{}"] = .ok d ∧
      d.get "$schema" = some (.str "https://json-schema.org/draft/2020-12/schema") ∧
      d.get "type" = some (.str "object") ∧
      d.get "properties" = some ((node.to_json_schema.get "properties").getD (JValue.obj [])) ∧
      (["{}"] = [] → d.get "properties" = some (JValue.obj [])) :=
  infer_schema_document_shape parseStub ["{}"]
    (by intro s hs; simp at hs; subst hs; exact ⟨JValue.obj [], rfl⟩)

/-! ## C10: items paths are inserted regardless of the items value's shape -/

/-- C10: whenever a schema object carries an `items` key, `collect_paths`
inserts the `[]`-suffixed path (bare `[]` at the root) regardless of the
shape of the items value, and recursion into a non-object items value
contributes no further paths; e.g. `{"items": 5}` yields exactly `{"[]"}`. -/
theorem collect_paths_items_any_shape (fields : List (String × JValue)) (pfx : String)
    (acc : Finset String) (v : JValue) (hitems : getField fields "items" = some v) :
    (if pfx = "" then "[]" else pfx ++ "[]") ∈ collect_paths (.obj fields) pfx acc
    ∧ (v.isObjB = false → ∀ pfx₁ acc₁, collect_paths v pfx₁ acc₁ = acc₁)
    ∧ collect_paths (JValue.obj [("items", JValue.num (JNum.posInt 5))]) "" ∅ = {"[]"} := by
  refine ⟨?_, ?_, ?_⟩
  · rw [collect_paths_obj]
    unfold itemsStep
    rw [hitems]
    exact Finset.mem_of_subset (subset_collect_paths v _ _) (Finset.mem_insert_self _ _)
  · intro hv pfx₁ acc₁
    exact collect_paths_not_obj v pfx₁ acc₁ hv
  · simp [collect_paths, getField]

/-- Witness for C10 at a boolean-valued `items`. -/
theorem collect_paths_items_any_shape_witness :
    (if "" = "" then "[]" else "" ++ "[]") ∈
      collect_paths (.obj [("items", JValue.bool true)]) "" ∅
    ∧ ((JValue.bool true).isObjB = false →
        ∀ pfx₁ acc₁, collect_paths (JValue.bool true) pfx₁ acc₁ = acc₁)
    ∧ collect_paths (JValue.obj [("items", JValue.num (JNum.posInt 5))]) "" ∅ = {"[]"} :=
  collect_paths_items_any_shape [("items", JValue.bool true)] "" ∅ (JValue.bool true) rfl

/-! ## C7: path linearization -/

/-- C7: `collect_paths` builds property paths as `parent.key` (bare `key` at
the root) and array paths as `parent[]` (bare `[]` at the root), inserting
both the path itself and, independently, the paths nested beneath it; the
nested-object example yields exactly `{"a", "a.x"}` and an array-typed
property `tags` contributes both `tags` and `tags[]`. -/
theorem collect_paths_linearization :
    (∀ (fields props : List (String × JValue)) (k : String) (v : JValue)
       (pfx : String) (acc : Finset String),
       getField fields "properties" = some (.obj props) → (k, v) ∈ props →
       (if pfx = "" then k else pfx ++ "." ++ k) ∈ collect_paths (.obj fields) pfx acc)
    ∧ (∀ (fields : List (String × JValue)) (v : JValue) (pfx : String) (acc : Finset String),
       getField fields "items" = some v →
       (if pfx = "" then "[]" else pfx ++ "[]") ∈ collect_paths (.obj fields) pfx acc)
    ∧ collect_paths
        (JValue.obj [("properties", JValue.obj
          [("a", JValue.obj [("properties", JValue.obj
            [("x", JValue.obj [("type", JValue.str "integer")])])])])]) "" ∅ =
        {"a", "a.x"}
    ∧ collect_paths
        (JValue.obj [("properties", JValue.obj
          [("tags", JValue.obj [("type", JValue.str "array"),
            ("items", JValue.obj [("type", JValue.str "string")])])])]) "" ∅ =
        {"tags", "tags[]"} := by
  refine ⟨?_, ?_, ?_, ?_⟩
  · intro fields props k v pfx acc hp hmem
    rw [collect_paths_obj]
    refine Finset.mem_of_subset (subset_itemsStep fields pfx _) ?_
    unfold propsStep
    rw [hp]
    exact mem_collect_props props k v pfx acc hmem
  · intro fields v pfx acc hitems
    rw [collect_paths_obj]
    unfold itemsStep
    rw [hitems]
    exact Finset.mem_of_subset (subset_collect_paths v _ _) (Finset.mem_insert_self _ _)
  · simp [collect_paths, collect_props, getField]
    decide
  · simp [collect_paths, collect_props, getField]
    decide

/-- Witness for C7's quantified clauses at concrete schemas. -/
theorem collect_paths_linearization_witness :
    (if "" = "" then "a" else "" ++ "." ++ "a") ∈
      collect_paths (.obj [("properties", JValue.obj [("a", JValue.null)])]) "" ∅
    ∧ (if "" = "" then "[]" else "" ++ "[]") ∈
      collect_paths (.obj [("items", JValue.null)]) "" ∅ :=
  ⟨collect_paths_linearization.1 [("properties", JValue.obj [("a", JValue.null)])]
      [("a", JValue.null)] "a" JValue.null "" ∅ rfl (by simp),
   collect_paths_linearization.2.1 [("items", JValue.null)] JValue.null "" ∅ rfl⟩

/-! ## C2: permutation invariance of inference -/

theorem entryObserve_nil (k : String) (v : JValue) :
    Node.entryObserve [] k v = [(k, Node.observe Node.default v)] := by
  simp [Node.entryObserve]

theorem entryObserve_update (k k₀ : String) (n₀ : Node) (rest : List (String × Node))
    (v : JValue) (h : k = k₀) :
    Node.entryObserve ((k₀, n₀) :: rest) k v = (k₀, Node.observe n₀ v) :: rest := by
  simp [Node.entryObserve, h]

theorem entryObserve_front (k k₀ : String) (n₀ : Node) (rest : List (String × Node))
    (v : JValue) (h1 : ¬k = k₀) (h2 : k < k₀) :
    Node.entryObserve ((k₀, n₀) :: rest) k v =
      (k, Node.observe Node.default v) :: (k₀, n₀) :: rest := by
  simp [Node.entryObserve, h1, h2]

theorem entryObserve_skip (k k₀ : String) (n₀ : Node) (rest : List (String × Node))
    (v : JValue) (h1 : ¬k = k₀) (h2 : ¬k < k₀) :
    Node.entryObserve ((k₀, n₀) :: rest) k v = (k₀, n₀) :: Node.entryObserve rest k v := by
  simp [Node.entryObserve, h1, h2]

theorem entryObserve_comm (k k' : String) (v v' : JValue)
    (hvv : ∀ m : Node, (m.observe v).observe v' = (m.observe v').observe v) :
    ∀ ps, Node.entryObserve (Node.entryObserve ps k v) k' v' =
          Node.entryObserve (Node.entryObserve ps k' v') k v := by
  intro ps
  induction ps with
  | nil =>
      rw [entryObserve_nil, entryObserve_nil]
      by_cases h1 : k = k'
      · subst h1
        rw [entryObserve_update k k _ _ _ rfl, entryObserve_update k k _ _ _ rfl, hvv]
      · have h1s : ¬k' = k := fun hh => h1 hh.symm
        rcases lt_trichotomy k k' with h | h | h
        · rw [entryObserve_skip k' k _ _ _ h1s (asymm h), entryObserve_nil,
            entryObserve_front k k' _ _ _ h1 h]
        · exact absurd h h1
        · rw [entryObserve_front k' k _ _ _ h1s h, entryObserve_skip k k' _ _ _ h1 (asymm h),
            entryObserve_nil]
  | cons p rest ih =>
      obtain ⟨k₀, n₀⟩ := p
      by_cases hk : k = k₀ <;> by_cases hk' : k' = k₀
      · -- both update the head
        rw [entryObserve_update k k₀ n₀ rest v hk,
          entryObserve_update k' k₀ (Node.observe n₀ v) rest v' hk',
          entryObserve_update k' k₀ n₀ rest v' hk',
          entryObserve_update k k₀ (Node.observe n₀ v') rest v hk, hvv]
      · -- k updates the head, k' does not
        have hne : ¬k = k' := fun hh => hk' (hh ▸ hk)
        rw [entryObserve_update k k₀ n₀ rest v hk]
        by_cases h2 : k' < k₀
        · have hnl : ¬k < k' := by rw [hk]; exact asymm h2
          rw [entryObserve_front k' k₀ (Node.observe n₀ v) rest v' hk' h2,
            entryObserve_front k' k₀ n₀ rest v' hk' h2,
            entryObserve_skip k k' (Node.observe Node.default v') ((k₀, n₀) :: rest) v hne hnl,
            entryObserve_update k k₀ n₀ rest v hk]
        · rw [entryObserve_skip k' k₀ (Node.observe n₀ v) rest v' hk' h2,
            entryObserve_skip k' k₀ n₀ rest v' hk' h2,
            entryObserve_update k k₀ n₀ (Node.entryObserve rest k' v') v hk]
      · -- k' updates the head, k does not
        have hne : ¬k' = k := fun hh => hk (hh ▸ hk')
        rw [entryObserve_update k' k₀ n₀ rest v' hk']
        by_cases h2 : k < k₀
        · have hnl : ¬k' < k := by rw [hk']; exact asymm h2
          rw [entryObserve_front k k₀ n₀ rest v hk h2,
            entryObserve_front k k₀ (Node.observe n₀ v') rest v hk h2,
            entryObserve_skip k' k (Node.observe Node.default v) ((k₀, n₀) :: rest) v' hne hnl,
            entryObserve_update k' k₀ n₀ rest v' hk']
        · rw [entryObserve_skip k k₀ n₀ rest v hk h2,
            entryObserve_skip k k₀ (Node.observe n₀ v') rest v hk h2,
            entryObserve_update k' k₀ n₀ (Node.entryObserve rest k v) v' hk']
      · -- neither updates the head
        by_cases hlt : k < k₀ <;> by_cases hlt' : k' < k₀
        · -- both insert in front of the head
          rw [entryObserve_front k k₀ _ _ _ hk hlt, entryObserve_front k' k₀ _ _ _ hk' hlt']
          by_cases h1 : k = k'
          · subst h1
            rw [entryObserve_update k k _ _ _ rfl, entryObserve_update k k _ _ _ rfl, hvv]
          · have h1s : ¬k' = k := fun hh => h1 hh.symm
            rcases lt_trichotomy k k' with h | h | h
            · rw [entryObserve_skip k' k _ _ _ h1s (asymm h),
                entryObserve_front k' k₀ _ _ _ hk' hlt',
                entryObserve_front k k' _ _ _ h1 h]
            · exact absurd h h1
            · rw [entryObserve_front k' k _ _ _ h1s h,
                entryObserve_skip k k' _ _ _ h1 (asymm h),
                entryObserve_front k k₀ _ _ _ hk hlt]
        · -- k in front, k' past the head
          rw [entryObserve_front k k₀ _ _ _ hk hlt, entryObserve_skip k' k₀ _ _ _ hk' hlt']
          have hkk : ¬k' = k := by
            intro hh; subst hh; exact hlt' hlt
          have hlt2 : ¬k' < k := by
            intro hh; exact hlt' (hh.trans hlt)
          rw [entryObserve_skip k' k _ _ _ hkk hlt2, entryObserve_skip k' k₀ _ _ _ hk' hlt',
            entryObserve_front k k₀ _ _ _ hk hlt]
        · -- k' in front, k past the head
          rw [entryObserve_skip k k₀ _ _ _ hk hlt, entryObserve_front k' k₀ _ _ _ hk' hlt']
          have hkk : ¬k = k' := by
            intro hh; subst hh; exact hlt hlt'
          have hlt2 : ¬k < k' := by
            intro hh; exact hlt (hh.trans hlt')
          rw [entryObserve_front k' k₀ _ _ _ hk' hlt',
            entryObserve_skip k k' _ _ _ hkk hlt2, entryObserve_skip k k₀ _ _ _ hk hlt]
        · -- both past the head
          rw [entryObserve_skip k k₀ _ _ _ hk hlt, entryObserve_skip k' k₀ _ _ _ hk' hlt',
            entryObserve_skip k' k₀ _ _ _ hk' hlt', entryObserve_skip k k₀ _ _ _ hk hlt, ih]

theorem observeFields_nil (ps : List (String × Node)) : Node.observeFields ps [] = ps := by
  simp [Node.observeFields]

theorem observeFields_cons (ps : List (String × Node)) (k : String) (v : JValue)
    (rest : List (String × JValue)) :
    Node.observeFields ps ((k, v) :: rest) = Node.observeFields (Node.entryObserve ps k v) rest := by
  simp [Node.observeFields]

theorem fields_pull (fs : List (String × JValue)) (k' : String) (v' : JValue)
    (h : ∀ kv ∈ fs, ∀ ps, Node.entryObserve (Node.entryObserve ps kv.1 kv.2) k' v' =
        Node.entryObserve (Node.entryObserve ps k' v') kv.1 kv.2) :
    ∀ ps, Node.entryObserve (Node.observeFields ps fs) k' v' =
      Node.observeFields (Node.entryObserve ps k' v') fs := by
  induction fs with
  | nil => intro ps; simp [observeFields_nil]
  | cons kv rest ih =>
      intro ps
      obtain ⟨k, v⟩ := kv
      rw [observeFields_cons, observeFields_cons,
        ih (fun kv hkv => h kv (by simp [hkv])),
        h (k, v) (by simp)]

theorem observeFields_swap (fs gs : List (String × JValue))
    (h : ∀ kv ∈ fs, ∀ kv' ∈ gs, ∀ ps,
      Node.entryObserve (Node.entryObserve ps kv.1 kv.2) kv'.1 kv'.2 =
        Node.entryObserve (Node.entryObserve ps kv'.1 kv'.2) kv.1 kv.2) :
    ∀ ps, Node.observeFields (Node.observeFields ps fs) gs =
      Node.observeFields (Node.observeFields ps gs) fs := by
  induction gs with
  | nil => intro ps; simp [observeFields_nil]
  | cons kv' gs ih =>
      intro ps
      obtain ⟨k', v'⟩ := kv'
      rw [observeFields_cons,
        fields_pull fs k' v' (fun kv hkv => h kv hkv (k', v') (by simp)) ps,
        ih (fun kv hkv kw hkw => h kv hkv kw (by simp [hkw])), observeFields_cons]

theorem observeAll_pull (xs : List JValue) (b : JValue)
    (h : ∀ x ∈ xs, ∀ m : Node, (m.observe x).observe b = (m.observe b).observe x) :
    ∀ n : Node, (Node.observeAll n xs).observe b = Node.observeAll (n.observe b) xs := by
  induction xs with
  | nil => intro n; simp [observeAll_nil]
  | cons x rest ih =>
      intro n
      rw [observeAll_cons, observeAll_cons,
        ih (fun y hy => h y (by simp [hy])), h x (by simp)]

theorem observeAll_swap (xs ys : List JValue)
    (h : ∀ x ∈ xs, ∀ y ∈ ys, ∀ m : Node, (m.observe x).observe y = (m.observe y).observe x) :
    ∀ n : Node, Node.observeAll (Node.observeAll n xs) ys =
      Node.observeAll (Node.observeAll n ys) xs := by
  induction ys with
  | nil => intro n; simp [observeAll_nil]
  | cons y ys ih =>
      intro n
      rw [observeAll_cons,
        observeAll_pull xs y (fun x hx => h x hx y (by simp)) n,
        ih (fun x hx z hz => h x hx z (by simp [hz])), observeAll_cons]

theorem observe_comm_aux :
    ∀ (N : Nat) (a b : JValue), sizeOf a + sizeOf b ≤ N →
      ∀ n : Node, (n.observe a).observe b = (n.observe b).observe a := by
  intro N
  induction N with
  | zero =>
      intro a b h n
      exfalso
      cases a <;> simp at h
  | succ N ih =>
      intro a b hN n
      obtain ⟨ts, ps, it⟩ := n
      cases a with
      | arr xs =>
          cases b with
          | arr ys =>
              simp only [Node.observe, Option.getD_some]
              rw [observeAll_swap xs ys
                (fun x hx y hy m => ih x y
                  (by
                    have h1 := List.sizeOf_lt_of_mem hx
                    have h2 := List.sizeOf_lt_of_mem hy
                    simp at hN
                    omega) m)]
          | obj gs => simp [Node.observe, Finset.Insert.comm]
          | null => simp [Node.observe, Finset.Insert.comm]
          | bool c => simp [Node.observe, Finset.Insert.comm]
          | num m => simp [Node.observe, Finset.Insert.comm]
          | str t => simp [Node.observe, Finset.Insert.comm]
      | obj fs =>
          cases b with
          | obj gs =>
              simp only [Node.observe]
              rw [observeFields_swap fs gs
                (fun kv hkv kw hkw ps2 =>
                  entryObserve_comm kv.1 kw.1 kv.2 kw.2
                    (fun m => ih kv.2 kw.2
                      (by
                        have h1 := List.sizeOf_lt_of_mem hkv
                        have h2 := List.sizeOf_lt_of_mem hkw
                        obtain ⟨k1, v1⟩ := kv
                        obtain ⟨k2, v2⟩ := kw
                        simp at hN h1 h2 ⊢
                        omega) m) ps2)]
          | arr ys => simp [Node.observe, Finset.Insert.comm]
          | null => simp [Node.observe, Finset.Insert.comm]
          | bool c => simp [Node.observe, Finset.Insert.comm]
          | num m => simp [Node.observe, Finset.Insert.comm]
          | str t => simp [Node.observe, Finset.Insert.comm]
      | null => cases b <;> simp [Node.observe, Finset.Insert.comm]
      | bool c => cases b <;> simp [Node.observe, Finset.Insert.comm]
      | num m => cases b <;> simp [Node.observe, Finset.Insert.comm]
      | str t => cases b <;> simp [Node.observe, Finset.Insert.comm]

theorem observe_comm (a b : JValue) (n : Node) :
    (n.observe a).observe b = (n.observe b).observe a :=
  observe_comm_aux (sizeOf a + sizeOf b) a b le_rfl n

theorem observeAll_perm {vs vs' : List JValue} (h : vs.Perm vs') :
    ∀ n : Node, Node.observeAll n vs = Node.observeAll n vs' := by
  induction h with
  | nil => intro n; rfl
  | cons x _ ih => intro n; rw [observeAll_cons, observeAll_cons, ih]
  | swap x y l => intro n; rw [observeAll_cons, observeAll_cons, observeAll_cons,
      observeAll_cons, observe_comm]
  | trans _ _ ih1 ih2 => intro n; rw [ih1, ih2]

theorem sortedStrArrB_of_sorted :
    ∀ l : List String, List.Sorted (· ≤ ·) l → sortedStrArrB (l.map JValue.str) = true := by
  intro l
  induction l with
  | nil => intro _; rfl
  | cons a tl ih =>
      intro h
      cases tl with
      | nil => rfl
      | cons b rest =>
          have hab : a ≤ b := (List.sorted_cons.mp h).1 b (by simp)
          have htl : List.Sorted (· ≤ ·) (b :: rest) := (List.sorted_cons.mp h).2
          simp [sortedStrArrB, hab]
          exact ih htl

theorem elemsTypeSortedB_strs : ∀ l : List String, elemsTypeSortedB (l.map JValue.str) = true := by
  intro l
  induction l with
  | nil => simp [elemsTypeSortedB]
  | cons a tl ih => simp [elemsTypeSortedB, typeArraysSortedB, ih]

theorem fieldsTypeSortedB_append (xs ys : List (String × JValue)) :
    fieldsTypeSortedB (xs ++ ys) = (fieldsTypeSortedB xs && fieldsTypeSortedB ys) := by
  induction xs with
  | nil => simp [fieldsTypeSortedB]
  | cons p rest ih =>
      obtain ⟨k, v⟩ := p
      simp [fieldsTypeSortedB, ih, Bool.and_assoc]

theorem to_json_schema_isObj (n : Node) : ∃ fields, n.to_json_schema = .obj fields := by
  obtain ⟨ts, ps, it⟩ := n
  exact ⟨_, to_json_schema_eq ts ps it⟩

theorem getField_propsToSchema_obj :
    ∀ (ps : List (String × Node)) (k : String) (v : JValue),
      getField (Node.propsToSchema ps) k = some v → v.isObjB = true := by
  intro ps
  induction ps with
  | nil => intro k v h; simp [Node.propsToSchema, getField] at h
  | cons p rest ih =>
      intro k v h
      obtain ⟨k0, n0⟩ := p
      rw [show Node.propsToSchema ((k0, n0) :: rest) =
        (k0, n0.to_json_schema) :: Node.propsToSchema rest by simp [Node.propsToSchema]] at h
      by_cases hk : k = k0
      · simp [getField, hk] at h
        obtain ⟨fields, hf⟩ := to_json_schema_isObj n0
        rw [← h, hf]
        rfl
      · simp [getField, hk] at h
        exact ih k v h

theorem fieldsTypeSortedB_getField :
    ∀ (fields : List (String × JValue)) (k : String) (w : JValue),
      fieldsTypeSortedB fields = true → getField fields k = some w →
      typeArraysSortedB w = true := by
  intro fields
  induction fields with
  | nil => intro k w _ h; simp [getField] at h
  | cons p rest ih =>
      intro k w hall h
      obtain ⟨k0, v0⟩ := p
      rw [show fieldsTypeSortedB ((k0, v0) :: rest) =
        (typeArraysSortedB v0 && fieldsTypeSortedB rest) by simp [fieldsTypeSortedB]] at hall
      simp at hall
      by_cases hk : k = k0
      · simp [getField, hk] at h
        rw [← h]; exact hall.1
      · simp [getField, hk] at h
        exact ih k w hall.2 h

theorem typeArraysSortedB_obj_eq (fields : List (String × JValue)) :
    typeArraysSortedB (.obj fields) =
      ((match getField fields "type" with
        | some (.arr l) => sortedStrArrB l
        | _ => true)
       && fieldsTypeSortedB fields) := by
  rw [typeArraysSortedB]

theorem emitted_sorted_aux :
    ∀ N : Nat,
      (∀ n : Node, sizeOf n ≤ N → typeArraysSortedB n.to_json_schema = true) ∧
      (∀ ps : List (String × Node), sizeOf ps ≤ N →
        fieldsTypeSortedB (Node.propsToSchema ps) = true) := by
  intro N
  induction N with
  | zero =>
      constructor
      · intro n h; exfalso; obtain ⟨ts, ps, it⟩ := n; simp at h
      · intro ps h; exfalso; cases ps <;> simp at h
  | succ N ih =>
      constructor
      · intro n hs
        obtain ⟨ts, ps, it⟩ := n
        rw [to_json_schema_eq, typeArraysSortedB_obj_eq]
        have hfields : fieldsTypeSortedB
            ((match typeNames ts with
              | [one] => [("type", JValue.str one)]
              | [] => []
              | many => [("type", JValue.arr (many.map JValue.str))])
             ++ (if TypeTag.object ∈ ts ∧ ps.isEmpty = false
                 then [("properties", JValue.obj (Node.propsToSchema ps))] else [])
             ++ (if TypeTag.array ∈ ts then
                   (match it with
                    | some c => [("items", c.to_json_schema)]
                    | none => []) else [])) = true := by
          rw [fieldsTypeSortedB_append, fieldsTypeSortedB_append]
          have hpart1 : fieldsTypeSortedB
              (match typeNames ts with
               | [one] => [("type", JValue.str one)]
               | [] => []
               | many => [("type", JValue.arr (many.map JValue.str))]) = true := by
            rcases hn : typeNames ts with _ | ⟨a, _ | ⟨b, l⟩⟩
            · simp [fieldsTypeSortedB]
            · simp [fieldsTypeSortedB, typeArraysSortedB]
            · simp [fieldsTypeSortedB, typeArraysSortedB]
              exact elemsTypeSortedB_strs (a :: b :: l)
          have hpart2 : fieldsTypeSortedB
              (if TypeTag.object ∈ ts ∧ ps.isEmpty = false
               then [("properties", JValue.obj (Node.propsToSchema ps))] else []) = true := by
            split_ifs with hc
            · simp [fieldsTypeSortedB, typeArraysSortedB_obj_eq]
              constructor
              · rcases hg : getField (Node.propsToSchema ps) "type" with _ | w
                · simp
                · have := getField_propsToSchema_obj ps "type" w hg
                  cases w <;> simp_all [JValue.isObjB]
              · exact ih.2 ps (by simp at hs; omega)
            · simp [fieldsTypeSortedB]
          have hpart3 : ∀ o : Option Node, o = it → fieldsTypeSortedB
              (if TypeTag.array ∈ ts then
                 (match o with
                  | some c => [("items", c.to_json_schema)]
                  | none => []) else []) = true := by
            intro o ho
            split_ifs with hc
            · cases o with
              | none => simp [fieldsTypeSortedB]
              | some c =>
                  rw [← ho] at hs
                  simp [fieldsTypeSortedB]
                  exact ih.1 c (by simp at hs; omega)
            · simp [fieldsTypeSortedB]
          rw [hpart1, hpart2, hpart3 it rfl]
          rfl
        rw [hfields]
        rcases hn : typeNames ts with _ | ⟨a, _ | ⟨b, l⟩⟩
        · simp only [Bool.and_true]
          split_ifs with h2 h3 <;> cases it <;> simp [getField]
        · simp [getField]
        · simp only [Bool.and_true]
          rw [show getField
              ([("type", JValue.arr ((a :: b :: l).map JValue.str))]
               ++ (if TypeTag.object ∈ ts ∧ ps.isEmpty = false
                   then [("properties", JValue.obj (Node.propsToSchema ps))] else [])
               ++ (if TypeTag.array ∈ ts then
                     (match it with
                      | some c => [("items", c.to_json_schema)]
                      | none => []) else [])) "type" =
              some (JValue.arr ((a :: b :: l).map JValue.str)) by simp [getField]]
          exact sortedStrArrB_of_sorted (a :: b :: l) (hn ▸ typeNames_sorted ts)
      · intro ps hs
        cases ps with
        | nil => simp [Node.propsToSchema, fieldsTypeSortedB]
        | cons p rest =>
            obtain ⟨k, n0⟩ := p
            rw [show Node.propsToSchema ((k, n0) :: rest) =
              (k, n0.to_json_schema) :: Node.propsToSchema rest by simp [Node.propsToSchema]]
            rw [show fieldsTypeSortedB ((k, n0.to_json_schema) :: Node.propsToSchema rest) =
              (typeArraysSortedB n0.to_json_schema &&
                fieldsTypeSortedB (Node.propsToSchema rest)) by simp [fieldsTypeSortedB]]
            rw [ih.1 n0 (by simp at hs; omega), ih.2 rest (by simp at hs; omega)]
            rfl

theorem emitted_sorted (n : Node) : typeArraysSortedB n.to_json_schema = true :=
  (emitted_sorted_aux (sizeOf n)).1 n le_rfl

theorem typeArraysSortedB_doc (node : Node) :
    typeArraysSortedB (JValue.obj
      [("$schema", JValue.str "https://json-schema.org/draft/2020-12/schema"),
       ("type", JValue.str "object"),
       ("properties", ((node.to_json_schema.get "properties").getD (JValue.obj [])))]) = true := by
  rw [typeArraysSortedB_obj_eq]
  have hP : typeArraysSortedB ((node.to_json_schema.get "properties").getD (JValue.obj [])) =
      true := by
    rcases hg : node.to_json_schema.get "properties" with _ | w
    · simp [typeArraysSortedB_obj_eq, getField, fieldsTypeSortedB]
    · obtain ⟨fields, hf⟩ := to_json_schema_isObj node
      rw [hf] at hg
      simp only [JValue.get] at hg
      have hs := emitted_sorted node
      rw [hf, typeArraysSortedB_obj_eq] at hs
      have hs2 := (Bool.and_eq_true _ _).mp hs
      simpa using fieldsTypeSortedB_getField fields "properties" w hs2.2 hg
  rw [show getField
      [("$schema", JValue.str "https://json-schema.org/draft/2020-12/schema"),
       ("type", JValue.str "object"),
       ("properties", ((node.to_json_schema.get "properties").getD (JValue.obj [])))] "type" =
      some (JValue.str "object") by simp [getField]]
  simp [fieldsTypeSortedB, typeArraysSortedB, hP]

/-- C2: `infer_schema` on any permutation of a list of samples that all
parse yields the same schema document — identical type sets, property-key
sets and items structure at every structural path (the embedding represents
the unordered hash containers canonically, so structural identity is
document equality) — and every `type` array in the document is
lexicographically sorted. -/
theorem infer_schema_perm_invariant (parse : String → Except String JValue)
    (ss ss2 : List String) (hperm : ss.Perm ss2)
    (hok : ∀ s ∈ ss, ∃ v, parse s = .ok v) :
    ∃ d, infer_schema_rs parse ss = .ok d ∧ infer_schema_rs parse ss2 = .ok d ∧
      typeArraysSortedB d = true := by
  have hok2 : ∀ s ∈ ss2, ∃ v, parse s = .ok v := fun s hs => hok s (hperm.mem_iff.mpr hs)
  have h1 : parse_samples parse ss = .ok (Node.observeAll Node.default (parsedValues parse ss)) :=
    parse_samples_loop_ok parse ss Node.default hok
  have h2 : parse_samples parse ss2 =
      .ok (Node.observeAll Node.default (parsedValues parse ss2)) :=
    parse_samples_loop_ok parse ss2 Node.default hok2
  have hpv : (parsedValues parse ss).Perm (parsedValues parse ss2) := by
    unfold parsedValues
    exact hperm.filterMap _
  have hnode : Node.observeAll Node.default (parsedValues parse ss2) =
      Node.observeAll Node.default (parsedValues parse ss) :=
    (observeAll_perm hpv Node.default).symm
  refine ⟨JValue.obj
      [("$schema", JValue.str "https://json-schema.org/draft/2020-12/schema"),
       ("type", JValue.str "object"),
       ("properties",
         (((Node.observeAll Node.default (parsedValues parse ss)).to_json_schema.get
            "properties").getD (JValue.obj [])))], ?_, ?_, ?_⟩
  · simp [infer_schema_rs, h1]
  · simp [infer_schema_rs, h2, hnode]
  · exact typeArraysSortedB_doc _

/-- Witness for C2 on a concrete two-sample permutation. -/
theorem infer_schema_perm_invariant_witness :
    ∃ d, infer_schema_rs parseStub ["sample-obj-a", "{}"] = .ok d ∧
      infer_schema_rs parseStub ["{}", "sample-obj-a"] = .ok d ∧
      typeArraysSortedB d = true :=
  infer_schema_perm_invariant parseStub ["sample-obj-a", "{}"] ["{}", "sample-obj-a"]
    (List.Perm.swap "{}" "sample-obj-a" [])
    (by
      intro s hs
      simp at hs
      rcases hs with rfl | rfl
      · exact ⟨JValue.obj [("a", JValue.num (JNum.posInt 1))], rfl⟩
      · exact ⟨JValue.obj [], rfl⟩)
